import Mathlib

/-!
Verification development for the fast-archiver archiving pipeline
(`falib/archiver.go`).  Go strings and byte slices are modelled as
`List Nat` (each element one byte), machine integers as `Nat` with
explicit `% 2 ^ w` where the Go code performs a narrowing conversion,
and fallible code as `Option`.  The filesystem, the glob matcher
`filepath.Match` and the outcome of `stat` calls are parameters of the
model; the archive output is a pure function of those parameters.
-/

set_option autoImplicit false

namespace FastArchiver

/-! ## Big-endian integer encoders (`encoding/binary`, BigEndian) -/

/-- Two-byte big-endian encoding of a `uint16` value, as produced by
`binary.Write(output, binary.BigEndian, x)` for `x : uint16`. -/
def u16be (n : Nat) : List Nat := [n / 2 ^ 8 % 2 ^ 8, n % 2 ^ 8]

/-- Four-byte big-endian encoding of a `uint32` value. -/
def u32be (n : Nat) : List Nat :=
  [n / 2 ^ 24 % 2 ^ 8, n / 2 ^ 16 % 2 ^ 8, n / 2 ^ 8 % 2 ^ 8, n % 2 ^ 8]

/-- Eight-byte big-endian encoding of a `uint64` value. -/
def u64be (n : Nat) : List Nat :=
  [n / 2 ^ 56 % 2 ^ 8, n / 2 ^ 48 % 2 ^ 8, n / 2 ^ 40 % 2 ^ 8, n / 2 ^ 32 % 2 ^ 8,
   n / 2 ^ 24 % 2 ^ 8, n / 2 ^ 16 % 2 ^ 8, n / 2 ^ 8 % 2 ^ 8, n % 2 ^ 8]

/-! ## Block model

The `Block` struct and the `blockType` constants are declared in a file
of the repository that is not part of `src/`; their shape is pinned by
the uses in `archiver.go` (field order in the composite literals, the
`uint16(b.numBytes)` / `uint32(b.uid)` conversions in `writeBlock`) and
by the spec data model. -/

/-- Modelled from the spec: the five block type tags (`blockTypeDirectory`,
`blockTypeStartOfFile`, `blockTypeEndOfFile`, `blockTypeData`,
`blockTypeChecksum`), declared outside `src/`.  The spec fixes a one-byte
tag per variant but not the concrete values; distinct small values are
chosen here, iota-style. -/
inductive BlockType where
  | directory
  | startOfFile
  | endOfFile
  | data
  | checksum
deriving DecidableEq, Repr

/-- Modelled from the spec: the one-byte tag written for each block type. -/
def blockTypeByte : BlockType → Nat
  | .directory => 0
  | .startOfFile => 1
  | .endOfFile => 2
  | .data => 3
  | .checksum => 4

/-- The `Block` struct (declared outside `src/`; field order and types are
pinned by the composite literals `Block{path, 0, nil, blockType..., uid, gid,
mode}` in `archiver.go` and the conversions in `writeBlock`: `filePath string`,
`numBytes uint16`, `buffer []byte`, `blockType blockType`, `uid int`,
`gid int`, `mode os.FileMode`). -/
structure Block where
  filePath : List Nat
  numBytes : Nat
  buffer : List Nat
  blockType : BlockType
  uid : Nat
  gid : Nat
  mode : Nat
deriving DecidableEq, Repr

/-- Modelled from the spec: `BlockSize`, the fixed read-chunk size, declared
outside `src/`; the spec fixes it to 65536 bytes ("fixed-size chunks
(reference: 65536 bytes)", "64 KiB in the reference format"). -/
def BlockSize : Nat := 65536

/-! ## Block encoder (`writeBlock`)

`writeBlock` performs a sequence of writes to the output; each write appends
bytes.  The `default` arm of the Go switch raises a run-time panic, modelled
as `none`. -/

/-- One `output.Write` call: append the bytes to the stream so far. -/
def wr (out : List Nat) (bs : List Nat) : List Nat := out ++ bs

/-- The method `(b *Block) writeBlock`: two-byte big-endian path length (the Go
`uint16(len(filePath))` conversion), the path bytes, the one-byte type tag,
then the type-specific payload.  The `default` arm panics: `none`. -/
def Block.writeBlock (b : Block) : Option (List Nat) :=
  let out := wr [] (u16be b.filePath.length)
  let out := wr out b.filePath
  let out := wr out [blockTypeByte b.blockType]
  match b.blockType with
  | .directory | .startOfFile =>
      some (wr (wr (wr out (u32be b.uid)) (u32be b.gid)) (u32be b.mode))
  | .endOfFile => some out
  | .data => some (wr (wr out (u16be b.numBytes)) (b.buffer.take b.numBytes))
  | .checksum => none

/-- The encoding layout as the spec states it ("2-byte big-endian path
length, the path bytes, a 1-byte type tag, then the type-specific payload"),
written as one flat concatenation, to be compared with `Block.writeBlock`. -/
def specEncode (b : Block) : List Nat :=
  u16be b.filePath.length ++ b.filePath ++ [blockTypeByte b.blockType] ++
    (match b.blockType with
     | .directory | .startOfFile => u32be b.uid ++ u32be b.gid ++ u32be b.mode
     | .endOfFile => []
     | .data => u16be b.numBytes ++ b.buffer.take b.numBytes
     | .checksum => [])

/-! ## CRC-64 (ECMA), `hash/crc64` as used by `archiveWriter` -/

/-- The ECMA polynomial constant `crc64.ECMA`. -/
def crc64ECMA : Nat := 0xC96C5795D7870F42

/-- One shift step of the table generator in `crc64.MakeTable`. -/
def crcTableStep (crc : Nat) : Nat :=
  if crc % 2 == 1 then (crc / 2) ^^^ crc64ECMA else crc / 2

/-- Entry `i` of `crc64.MakeTable(crc64.ECMA)`: eight shift steps from `i`. -/
def crcTableEntry (i : Nat) : Nat := Nat.iterate crcTableStep 8 i

/-- The 256-entry table `crc64.MakeTable(crc64.ECMA)`. -/
def crc64Table : List Nat := (List.range 256).map crcTableEntry

/-- All-ones 64-bit mask: the Go complement `^crc` on `uint64` is
`crc XOR mask64`. -/
def mask64 : Nat := 2 ^ 64 - 1

/-- One byte of the `crc64` update loop:
`crc = tab[byte(crc)^v] ^ (crc >> 8)`. -/
def crcStep (crc b : Nat) : Nat :=
  crc64Table.getD ((crc % 2 ^ 8) ^^^ (b % 2 ^ 8)) 0 ^^^ (crc / 2 ^ 8)

/-- The `crc64` digest update: complement, per-byte table steps, complement.
`crc64Update c p` is the digest state after feeding bytes `p` to a digest in
state `c`; a fresh digest starts at state `0` and `Sum64` returns the state. -/
def crc64Update (crc : Nat) (p : List Nat) : Nat :=
  mask64 ^^^ p.foldl crcStep (mask64 ^^^ crc)

/-! ## Checksum blocks (`writeChecksumBlock`) -/

/-- The fixed three bytes written before a checksum value: a zero path
length and the checksum type tag. -/
def chkLead : List Nat := u16be 0 ++ [blockTypeByte .checksum]

/-- The value stored by `writeChecksumBlock`: `hash.Sum64()` is taken after
the path-length and type-tag bytes have passed through the `MultiWriter`,
so it covers every byte written so far including those three. -/
def chkValue (crc : Nat) : Nat := crc64Update crc chkLead

/-- The function `writeChecksumBlock(hash, output)` with the digest in state `crc`:
returns the bytes written and the digest state afterwards (the eight value
bytes also pass through the `MultiWriter`). -/
def writeChecksumBlockBytes (crc : Nat) : List Nat × Nat :=
  let out := wr [] (u16be 0)
  let c1 := crc64Update crc (u16be 0)
  let out := wr out [blockTypeByte .checksum]
  let c2 := crc64Update c1 [blockTypeByte .checksum]
  let v := c2
  (wr out (u64be v), crc64Update c2 (u64be v))

/-! ## Stream writer (`archiveWriter`)

The writer drains the block queue in order; the queue contents are a list
of blocks.  Its trace is kept as a list of segments: one segment per queue
block written and one per emitted checksum block, from which the byte
stream is recovered by concatenation. -/

/-- One segment of the writer trace: a queue block with its encoding, or
a checksum block with its stored value. -/
inductive Seg where
  | blk (b : Block) (bytes : List Nat)
  | chk (value : Nat)
deriving DecidableEq, Repr

/-- The bytes a segment contributes to the stream. -/
def segBytes : Seg → List Nat
  | .blk _ bs => bs
  | .chk v => chkLead ++ u64be v

/-- The consume loop of `archiveWriter`: `crc` is the digest state, `count`
the number of queue blocks written so far; a checksum block follows every
block that makes `count % 1000 == 0`, and one final checksum block is
written when the queue is drained.  `none` models the `writeBlock` panic. -/
def awLoop : List Block → Nat → Nat → Option (List Seg)
  | [], crc, _ => some [.chk (chkValue crc)]
  | b :: rest, crc, count =>
    match b.writeBlock with
    | none => none
    | some bs =>
      let crc1 := crc64Update crc bs
      let count1 := count + 1
      if count1 % 1000 == 0 then
        let v := chkValue crc1
        match awLoop rest (crc64Update v (u64be v)) count1 with
        | none => none
        | some segs => some (.blk b bs :: .chk v :: segs)
      else
        match awLoop rest crc1 count1 with
        | none => none
        | some segs => some (.blk b bs :: segs)

/-- The byte stream contributed by a writer trace. -/
def segsBytes (segs : List Seg) : List Nat := (segs.map segBytes).flatten

/-- The function `archiveWriter`: write the magic header (declared outside `src/`, here a
parameter), then the loop; the digest covers the header as well since the
header goes through the `MultiWriter`. -/
def archiveWriter (header : List Nat) (blocks : List Block) : Option (List Nat) :=
  match awLoop blocks (crc64Update 0 header) 0 with
  | none => none
  | some segs => some (header ++ segsBytes segs)

/-- Checksum events of a trace, starting at byte offset `off`: for each
checksum segment, the offset of its stored eight-byte value within the
stream and that value.  A checksum segment occupies 11 bytes, its value
starting 3 bytes in. -/
def chkEvents : Nat → List Seg → List (Nat × Nat)
  | _, [] => []
  | off, .blk _ bs :: rest => chkEvents (off + bs.length) rest
  | off, .chk v :: rest => (off + 3, v) :: chkEvents (off + 11) rest

/-- Every recorded checksum value equals the CRC-64 recomputed from scratch
over the stream prefix that precedes the stored value. -/
def eventsOk (stream : List Nat) (evs : List (Nat × Nat)) : Bool :=
  evs.all (fun e => e.2 == crc64Update 0 (stream.take e.1))

/-! ## Checksum cadence (`blockCount % 1000`) -/

/-- Lengths of the runs of queue blocks closed by each checksum segment:
`cur` is the number of queue blocks seen since the previous checksum. -/
def gapsAux : Nat → List Seg → List Nat
  | _, [] => []
  | cur, Seg.blk _ _ :: rest => gapsAux (cur + 1) rest
  | cur, Seg.chk _ :: rest => cur :: gapsAux 0 rest

/-- Whether the last segment of a trace is a checksum block. -/
def lastIsChk (segs : List Seg) : Bool :=
  match segs.getLast? with
  | some (Seg.chk _) => true
  | _ => false

/-- The gap list a completed run must produce: every gap but the last is
exactly 1000 queue blocks, and the final gap is shorter than 1000. -/
def gapsOk (L : List Nat) : Bool :=
  L.dropLast.all (fun g => g == 1000) && decide (L.getLastD 0 < 1000)

/-! ## File reader (`fileReader`) -/

/-- The chunks the read loop obtains when every read succeeds: successive
`BlockSize`-byte reads; a read at end of stream returns `io.EOF` and the
loop breaks, so empty content yields no chunks. -/
def readChunks (content : List Nat) : List (List Nat) :=
  if hc : content = [] then []
  else content.take BlockSize :: readChunks (content.drop BlockSize)
termination_by content.length
decreasing_by
  simp only [List.length_drop, BlockSize]
  have : 0 < content.length := List.length_pos.mpr hc
  omega

/-- Result of `file.Stat()` as consumed by `getModeOwnership`: `none` when
the stat call fails; otherwise the mode, paired with the uid and gid when
the `syscall.Stat_t` pointer is non-nil. -/
abbrev StatInfo := Option (Nat × Option (Nat × Nat))

/-- The method `getModeOwnership`: uid, gid and mode start at zero; on a stat error
(or a nil `Stat_t`) the zero defaults are returned after a warning and the
caller proceeds. -/
def getModeOwnership : StatInfo → Nat × Nat × Nat
  | none => (0, 0, 0)
  | some (mode, none) => (0, 0, mode)
  | some (mode, some (uid, gid)) => (uid, gid, mode)

/-- The literal `Block{filePath, 0, nil, blockTypeStartOfFile, uid, gid, mode}`. -/
def startOfFileBlock (p : List Nat) (st : StatInfo) : Block :=
  { filePath := p, numBytes := 0, buffer := [], blockType := .startOfFile,
    uid := (getModeOwnership st).1, gid := (getModeOwnership st).2.1,
    mode := (getModeOwnership st).2.2 }

/-- The literal `Block{directoryPath, 0, nil, blockTypeDirectory, uid, gid, mode}`. -/
def directoryBlock (p : List Nat) (st : StatInfo) : Block :=
  { filePath := p, numBytes := 0, buffer := [], blockType := .directory,
    uid := (getModeOwnership st).1, gid := (getModeOwnership st).2.1,
    mode := (getModeOwnership st).2.2 }

/-- The literal `Block{filePath, 0, nil, blockTypeEndOfFile, 0, 0, 0}`. -/
def endOfFileBlock (p : List Nat) : Block :=
  { filePath := p, numBytes := 0, buffer := [], blockType := .endOfFile,
    uid := 0, gid := 0, mode := 0 }

/-- The literal `Block{filePath, uint16(bytesRead), buffer, blockTypeData, 0, 0, 0}`:
the chunk length passes through the narrowing conversion `uint16(bytesRead)`,
i.e. `% 2 ^ 16`.  (The Go buffer is a fresh 65536-byte array of which only
the first `bytesRead` bytes are meaningful and only `buffer[:b.numBytes]`
is ever read back; the model keeps the meaningful prefix.) -/
def dataBlock (p : List Nat) (chunk : List Nat) : Block :=
  { filePath := p, numBytes := chunk.length % 2 ^ 16, buffer := chunk,
    blockType := .data, uid := 0, gid := 0, mode := 0 }

/-- The blocks the file reader emits for one opened file, given the chunks
its read loop returned before breaking (at end of stream or on a read
error): one StartOfFile, one Data block per chunk, then exactly one
EndOfFile, emitted outside the loop on every path. -/
def fileReaderChunksUnit (p : List Nat) (st : StatInfo)
    (chunks : List (List Nat)) : List Block :=
  startOfFileBlock p st :: (chunks.map (dataBlock p) ++ [endOfFileBlock p])

/-- The blocks for one file whose reads all succeed. -/
def fileReaderUnit (p : List Nat) (st : StatInfo) (content : List Nat) :
    List Block :=
  fileReaderChunksUnit p st (readChunks content)

/-- One iteration of the `fileReader` worker loop: `none` models a failed
`os.Open` (a warning is logged, no blocks are emitted, no handle to close).
Returns the emitted blocks, whether the handle was closed, and whether
`workInProgress.Done` was called. -/
def fileReaderItem (p : List Nat) :
    Option (StatInfo × List (List Nat)) → List Block × Bool × Bool
  | none => ([], false, true)
  | some (st, chunks) => (fileReaderChunksUnit p st chunks, true, true)

/-! ## Directory scanner (`directoryScanner`) and the filesystem model -/

/-- A filesystem tree as the workers observe it.  Each node is the outcome
the operating system gives for that path: a regular file with its stat
result and content, a file whose `os.Open` fails, a directory with its stat
result and named entries, a directory whose `os.Open` fails, a symbolic
link, or an entry whose `os.Lstat` fails. -/
inductive FSNode where
  | file (stat : StatInfo) (content : List Nat)
  | fileOpenFail
  | dir (stat : StatInfo) (entries : List (List Nat × FSNode))
  | dirOpenFail
  | symlink
  | lstatFail

/-- The call `filepath.Join(directoryPath, fileName)`: the slash byte (47) between. -/
def joinPath (dir name : List Nat) : List Nat := dir ++ 47 :: name

/-- The exclusion loop of the scanner: a child path is dropped when any
pattern of the consulted list matches it.  `m` stands for `filepath.Match`
restricted to its error-free outcome (`err == nil && match`). -/
def excluded (m : List Nat → List Nat → Bool) (pats : List (List Nat))
    (p : List Nat) : Bool :=
  pats.any (fun pat => m pat p)

/-- The per-unit block sequences the pipeline produces for one routed tree:
one unit per unit of work (a scanned directory or a read file), each unit
being the FIFO sequence of blocks its worker sends.  A scanned directory
contributes its Directory block as one unit, then routes each entry:
excluded paths, symbolic links and lstat failures are skipped with a log
message only; files go to the file readers; subdirectories are scanned in
turn; open failures contribute no blocks. -/
def units (m : List Nat → List Nat → Bool) (pats : List (List Nat))
    (p : List Nat) : FSNode → List (List Block)
  | .file st content => [fileReaderUnit p st content]
  | .fileOpenFail => []
  | .dir st entries =>
      [directoryBlock p st] ::
        (entries.attach.map (fun ⟨e, he⟩ =>
          if excluded m pats (joinPath p e.1) then []
          else units m pats (joinPath p e.1) e.2)).flatten
  | .dirOpenFail => []
  | .symlink => []
  | .lstatFail => []
termination_by n => sizeOf n
decreasing_by
  have h1 := List.sizeOf_lt_of_mem he
  have h2 : sizeOf e.2 < sizeOf e := by
    obtain ⟨a, b⟩ := e
    simp only [Prod.mk.sizeOf_spec]
    omega
  have h3 : sizeOf entries < sizeOf (FSNode.dir st entries) := by
    simp only [FSNode.dir.sizeOf_spec]
    omega
  omega

/-! ## Streams: interleavings of the per-unit FIFO sequences

The pipeline delivers the blocks of the concurrently running workers to the
single writer through one FIFO queue: the sends of each unit stay in order,
distinct units interleave arbitrarily.  A possible stream is any
interleaving of the units. -/

/-- The relation `Ilv L s`: `s` interleaves the lists of `L`, preserving the relative
order within each list. -/
inductive Ilv : List (List Block) → List Block → Prop where
  | done (L : List (List Block)) (h : ∀ l ∈ L, l = []) : Ilv L []
  | step (L : List (List Block)) (i : Nat) (x : Block) (l : List Block)
      (s : List Block) (hi : L[i]? = some (x :: l))
      (hrec : Ilv (L.set i l) s) : Ilv L (x :: s)

/-- The path shared by all blocks of a unit (units are never empty). -/
def unitPath : List Block → List Nat
  | [] => []
  | b :: _ => b.filePath

/-- Checks that a block list is zero or more Data blocks closed by exactly
one EndOfFile block. -/
def dataThenEof : List Block → Bool
  | [] => false
  | [b] => b.blockType == BlockType.endOfFile
  | b :: b2 :: rest =>
      (b.blockType == BlockType.data) && dataThenEof (b2 :: rest)

/-- Checks that a block list is one StartOfFile, then Data blocks, then one
EndOfFile. -/
def fileShape : List Block → Bool
  | [] => false
  | b :: rest => (b.blockType == BlockType.startOfFile) && dataThenEof rest

/-- Whether a block belongs to a file group. -/
def isFileBlock (b : Block) : Bool :=
  b.blockType == BlockType.startOfFile || b.blockType == BlockType.data ||
    b.blockType == BlockType.endOfFile

/-- The per-path property claimed of a decoded group `f` (all stream blocks
of one path, in stream order): if the path has a Directory block, exactly
one; if it has file blocks, the group is StartOfFile, Data blocks, one
EndOfFile, with nothing of that path in between. -/
def groupOk (f : List Block) : Bool :=
  (if f.any (fun b => b.blockType == BlockType.directory) then
    f.countP (fun b => b.blockType == BlockType.directory) == 1 else true) &&
  (if f.any isFileBlock then fileShape f else true)

/-- Checks `groupOk` for every path appearing in the stream. -/
def streamGroupsOk (s : List Block) : Bool :=
  (s.map (fun b => b.filePath)).all
    (fun q => groupOk (s.filter (fun b => b.filePath == q)))

/-! ## Archiver configuration (C1) -/

/-- The configuration fields of the `Archiver` struct: `excludePatterns`
(unexported) is the field `directoryScanner` consults; `ExcludePatterns`
(exported) is the public configuration surface.  Queues, waitgroup, logger
and the output sink are not part of the pure configuration. -/
structure Archiver where
  excludePatterns : List (List Nat)
  DirReaderCount : Nat
  FileReaderCount : Nat
  DirScanQueueSize : Nat
  FileReadQueueSize : Nat
  BlockQueueSize : Nat
  ExcludePatterns : List (List Nat)

/-- The constructor `NewArchiver`: `ExcludePatterns` starts empty, reader counts 16, queue
sizes 128; the unexported `excludePatterns` keeps the Go zero value `nil`,
and no code path of the package ever assigns it afterwards. -/
def NewArchiver : Archiver :=
  { excludePatterns := [], DirReaderCount := 16, FileReaderCount := 16,
    DirScanQueueSize := 128, FileReadQueueSize := 128, BlockQueueSize := 128,
    ExcludePatterns := [] }

/-- The units a run of archiver `a` produces for one root tree: the scanner
iterates over `a.excludePatterns`, the unexported field. -/
def Archiver.runUnits (a : Archiver) (m : List Nat → List Nat → Bool)
    (root : List Nat) (t : FSNode) : List (List Block) :=
  units m a.excludePatterns root t

/-! ## Run termination and the absolute-path error (C6)

The pending-work counter (`workInProgress`) reaches zero exactly when
every `Add` has been matched by a `Done`; the terminator then closes the
queues and the run drains.  The model counts both calls per root. -/

/-- Whether the scanner routes a child onwards (symbolic links and lstat
failures are skipped with a warning, everything else is routed). -/
def routed : FSNode → Bool
  | .symlink => false
  | .lstatFail => false
  | _ => true

/-- Calls of `workInProgress.Add(1)` made while processing the subtree of
one routed item, beyond the Add that enqueued the item itself: the scanner calls
Add once per routed, non-excluded child, recursively. -/
def addsOf (m : List Nat → List Nat → Bool) (pats : List (List Nat))
    (p : List Nat) : FSNode → Nat
  | .file _ _ => 0
  | .fileOpenFail => 0
  | .dir st entries =>
      (entries.attach.map (fun ⟨e, he⟩ =>
        if excluded m pats (joinPath p e.1) then 0
        else if routed e.2 then 1 + addsOf m pats (joinPath p e.1) e.2
        else 0)).sum
  | .dirOpenFail => 0
  | .symlink => 0
  | .lstatFail => 0
termination_by n => sizeOf n
decreasing_by
  have h1 := List.sizeOf_lt_of_mem he
  have h2 : sizeOf e.2 < sizeOf e := by
    obtain ⟨a, b⟩ := e
    simp only [Prod.mk.sizeOf_spec]
    omega
  have h3 : sizeOf entries < sizeOf (FSNode.dir st entries) := by
    simp only [FSNode.dir.sizeOf_spec]
    omega
  omega

/-- Calls of `workInProgress.Done()` made while processing the subtree of
one routed item, its own included: every consumed queue item calls Done exactly
once, and its routed, non-excluded children are processed in turn. -/
def donesOf (m : List Nat → List Nat → Bool) (pats : List (List Nat))
    (p : List Nat) : FSNode → Nat
  | .file _ _ => 1
  | .fileOpenFail => 1
  | .dir st entries =>
      1 + (entries.attach.map (fun ⟨e, he⟩ =>
        if excluded m pats (joinPath p e.1) then 0
        else if routed e.2 then donesOf m pats (joinPath p e.1) e.2
        else 0)).sum
  | .dirOpenFail => 1
  | .symlink => 1
  | .lstatFail => 1
termination_by n => sizeOf n
decreasing_by
  have h1 := List.sizeOf_lt_of_mem he
  have h2 : sizeOf e.2 < sizeOf e := by
    obtain ⟨a, b⟩ := e
    simp only [Prod.mk.sizeOf_spec]
    omega
  have h3 : sizeOf entries < sizeOf (FSNode.dir st entries) := by
    simp only [FSNode.dir.sizeOf_spec]
    omega
  omega

/-- The test `strings.HasPrefix(directoryPath, slash)`: the path starts with the
slash byte. -/
def startsWithSlash (p : List Nat) : Bool :=
  match p with
  | [] => false
  | b :: _ => b == 47

/-- Either `ErrAbsoluteDirectoryPath`, or an I/O error from the output sink. -/
inductive GoError where
  | absoluteDirectoryPath
  | ioError
deriving DecidableEq, Repr

/-- Blocks produced for one root: an absolute root is rejected by the
scanner before it is opened, so it contributes none. -/
def rootUnits (m : List Nat → List Nat → Bool) (pats : List (List Nat))
    (root : List Nat) (t : FSNode) : List (List Block) :=
  if startsWithSlash root then [] else units m pats root t

/-- The `a.error` field once every scanner item is consumed: set to
`ErrAbsoluteDirectoryPath` exactly when some root path is absolute. -/
def scanError (roots : List (List Nat)) : Option GoError :=
  if roots.any startsWithSlash then some .absoluteDirectoryPath else none

/-- The value `Run` returns: the writer error if there was one, otherwise
`a.error`. -/
def runError (writerErr : Option GoError) (roots : List (List Nat)) :
    Option GoError :=
  match writerErr with
  | some e => some e
  | none => scanError roots

/-- Add calls for one root: `AddDir` adds one; an absolute root is dropped
before routing any children. -/
def rootAdds (m : List Nat → List Nat → Bool) (pats : List (List Nat))
    (root : List Nat) (t : FSNode) : Nat :=
  1 + (if startsWithSlash root then 0 else addsOf m pats root t)

/-- Done calls for one root: for an absolute root the scanner still marks
the unit of work complete; otherwise the subtree is processed to completion. -/
def rootDones (m : List Nat → List Nat → Bool) (pats : List (List Nat))
    (root : List Nat) (t : FSNode) : Nat :=
  if startsWithSlash root then 1 else donesOf m pats root t

theorem u16be_length (n : Nat) : (u16be n).length = 2 := rfl

theorem u32be_length (n : Nat) : (u32be n).length = 4 := rfl

theorem u64be_length (n : Nat) : (u64be n).length = 8 := rfl

/-- Feeding `a` then `b` to the digest equals feeding `a ++ b`:
incremental updates compose. -/
theorem crc64Update_append (c : Nat) (a b : List Nat) :
    crc64Update (crc64Update c a) b = crc64Update c (a ++ b) := by
  unfold crc64Update
  rw [Nat.xor_cancel_left, List.foldl_append]

theorem writeChecksumBlockBytes_eq (crc : Nat) :
    writeChecksumBlockBytes crc =
      (chkLead ++ u64be (chkValue crc),
       crc64Update (chkValue crc) (u64be (chkValue crc))) := by
  have h : crc64Update (crc64Update crc (u16be 0)) [blockTypeByte .checksum] =
      chkValue crc := by
    rw [crc64Update_append]; rfl
  unfold writeChecksumBlockBytes
  dsimp only
  rw [h]
  simp [wr, chkLead]

@[simp] theorem segBytes_blk (b : Block) (bs : List Nat) :
    segBytes (Seg.blk b bs) = bs := rfl

@[simp] theorem segBytes_chk (v : Nat) :
    segBytes (Seg.chk v) = chkLead ++ u64be v := rfl

@[simp] theorem segsBytes_nil : segsBytes [] = [] := rfl

@[simp] theorem segsBytes_cons (s : Seg) (segs : List Seg) :
    segsBytes (s :: segs) = segBytes s ++ segsBytes segs := rfl

theorem chkLead_length : chkLead.length = 3 := by decide

theorem segBytes_chk_length (v : Nat) : (segBytes (Seg.chk v)).length = 11 := by
  simp [segBytes, chkLead, u16be, u64be]

/-- Invariant form of the checksum-recompute property: if the digest state
equals the CRC of a prefix `pre` already written, every checksum event of
the remaining trace recomputes from scratch. -/
theorem awLoop_events : ∀ (blocks : List Block) (count : Nat) (pre : List Nat)
    (segs : List Seg),
    awLoop blocks (crc64Update 0 pre) count = some segs →
    eventsOk (pre ++ segsBytes segs) (chkEvents pre.length segs) = true := by
  intro blocks
  induction blocks with
  | nil =>
    intro count pre segs h
    simp only [awLoop, Option.some.injEq] at h
    subst h
    simp only [segsBytes_cons, segsBytes_nil, List.append_nil,
      chkEvents, eventsOk, List.all_cons, List.all_nil, Bool.and_true]
    have htake : (pre ++ segBytes (Seg.chk (chkValue (crc64Update 0 pre)))).take
        (pre.length + 3) = pre ++ chkLead := by
      rw [List.take_append]
      simp only [segBytes]
      rw [← chkLead_length, List.take_left]
    rw [htake]
    simp only [chkValue, crc64Update_append]
    exact beq_self_eq_true _
  | cons b rest ih =>
    intro count pre segs h
    simp only [awLoop] at h
    cases hwb : b.writeBlock with
    | none => rw [hwb] at h; exact absurd h (by simp)
    | some bs =>
      rw [hwb] at h
      simp only [] at h
      by_cases hc : (count + 1) % 1000 == 0
      · rw [if_pos hc] at h
        cases hrec : awLoop rest
            (crc64Update (chkValue (crc64Update (crc64Update 0 pre) bs))
              (u64be (chkValue (crc64Update (crc64Update 0 pre) bs)))) (count + 1) with
        | none => rw [hrec] at h; exact absurd h (by simp)
        | some segs1 =>
          rw [hrec] at h
          simp only [Option.some.injEq] at h
          subst h
          set v := chkValue (crc64Update (crc64Update 0 pre) bs) with hv
          have hpre1 : crc64Update v (u64be v) =
              crc64Update 0 (pre ++ bs ++ chkLead ++ u64be v) := by
            rw [hv, chkValue, crc64Update_append, crc64Update_append,
              crc64Update_append]
            simp [List.append_assoc]
          rw [hpre1] at hrec
          have ihres := ih (count + 1) (pre ++ bs ++ chkLead ++ u64be v) segs1 hrec
          simp only [segsBytes_cons, segBytes_blk, segBytes_chk, chkEvents,
            eventsOk, List.all_cons, Bool.and_eq_true] at ihres ⊢
          constructor
          · -- the head event recomputes
            have htake : (pre ++ (bs ++ (chkLead ++ u64be v ++ segsBytes segs1))).take
                (pre.length + bs.length + 3) = (pre ++ bs) ++ chkLead := by
              have h1 : pre ++ (bs ++ (chkLead ++ u64be v ++ segsBytes segs1)) =
                  (pre ++ bs) ++ (chkLead ++ (u64be v ++ segsBytes segs1)) := by
                simp [List.append_assoc]
              rw [h1, ← List.length_append pre bs, List.take_append,
                ← chkLead_length, List.take_left]
            rw [htake]
            simp only [hv, chkValue, crc64Update_append]
            exact beq_self_eq_true _
          · -- the tail events are those of the continued trace
            have harr : (pre ++ bs ++ chkLead ++ u64be v) ++ segsBytes segs1 =
                pre ++ (bs ++ (chkLead ++ u64be v ++ segsBytes segs1)) := by
              simp [List.append_assoc]
            have hoff : (pre ++ bs ++ chkLead ++ u64be v).length =
                pre.length + bs.length + 11 := by
              simp only [List.length_append, chkLead_length, u64be_length]
            rw [harr, hoff] at ihres
            exact ihres
      · rw [if_neg hc] at h
        cases hrec : awLoop rest (crc64Update (crc64Update 0 pre) bs) (count + 1) with
        | none => rw [hrec] at h; exact absurd h (by simp)
        | some segs1 =>
          rw [hrec] at h
          simp only [Option.some.injEq] at h
          subst h
          rw [crc64Update_append] at hrec
          have ihres := ih (count + 1) (pre ++ bs) segs1 hrec
          simp only [segsBytes_cons, segBytes_blk, chkEvents, eventsOk] at ihres ⊢
          rw [List.append_assoc, List.length_append] at ihres
          exact ihres

/-- C3: for every produced stream and every Checksum block in it, recomputing
the CRC-64 (ECMA) from scratch over all bytes of the stream from the magic
header up to and including the length-and-type prefix of that Checksum
block (hence including the bytes of every prior Checksum block) reproduces
the stored
64-bit value. -/
theorem c3_checksum_values_recompute (header : List Nat) (blocks : List Block) :
    match awLoop blocks (crc64Update 0 header) 0 with
    | none => True
    | some segs =>
        archiveWriter header blocks = some (header ++ segsBytes segs) ∧
        eventsOk (header ++ segsBytes segs) (chkEvents header.length segs) = true := by
  cases h : awLoop blocks (crc64Update 0 header) 0 with
  | none => trivial
  | some segs =>
    refine ⟨?_, awLoop_events blocks 0 header segs h⟩
    simp [archiveWriter, h]

theorem lastIsChk_cons_cons (s r : Seg) (t : List Seg) :
    lastIsChk (s :: r :: t) = lastIsChk (r :: t) := by
  simp [lastIsChk, List.getLast?_cons_cons]

theorem awLoop_lastIsChk : ∀ (blocks : List Block) (crc count : Nat)
    (segs : List Seg), awLoop blocks crc count = some segs →
    segs ≠ [] ∧ lastIsChk segs = true := by
  intro blocks
  induction blocks with
  | nil =>
    intro crc count segs h
    simp only [awLoop, Option.some.injEq] at h
    subst h
    exact ⟨by simp, rfl⟩
  | cons b rest ih =>
    intro crc count segs h
    simp only [awLoop] at h
    cases hwb : b.writeBlock with
    | none => rw [hwb] at h; exact absurd h (by simp)
    | some bs =>
      rw [hwb] at h
      simp only [] at h
      by_cases hc : (count + 1) % 1000 == 0
      · rw [if_pos hc] at h
        cases hrec : awLoop rest
            (crc64Update (chkValue (crc64Update crc bs))
              (u64be (chkValue (crc64Update crc bs)))) (count + 1) with
        | none => rw [hrec] at h; exact absurd h (by simp)
        | some segs1 =>
          rw [hrec] at h
          simp only [Option.some.injEq] at h
          subst h
          obtain ⟨hne, hlast⟩ := ih _ _ _ hrec
          obtain ⟨s1, t1, rfl⟩ := List.exists_cons_of_ne_nil hne
          refine ⟨by simp, ?_⟩
          rw [lastIsChk_cons_cons, lastIsChk_cons_cons]
          exact hlast
      · rw [if_neg hc] at h
        cases hrec : awLoop rest (crc64Update crc bs) (count + 1) with
        | none => rw [hrec] at h; exact absurd h (by simp)
        | some segs1 =>
          rw [hrec] at h
          simp only [Option.some.injEq] at h
          subst h
          obtain ⟨hne, hlast⟩ := ih _ _ _ hrec
          obtain ⟨s1, t1, rfl⟩ := List.exists_cons_of_ne_nil hne
          refine ⟨by simp, ?_⟩
          rw [lastIsChk_cons_cons]
          exact hlast

theorem awLoop_gaps : ∀ (blocks : List Block) (crc count : Nat)
    (segs : List Seg), awLoop blocks crc count = some segs →
    gapsAux (count % 1000) segs ≠ [] ∧
    (gapsAux (count % 1000) segs).dropLast.all (fun g => g == 1000) = true ∧
    (gapsAux (count % 1000) segs).getLastD 0 < 1000 := by
  intro blocks
  induction blocks with
  | nil =>
    intro crc count segs h
    simp only [awLoop, Option.some.injEq] at h
    subst h
    refine ⟨by simp [gapsAux], by simp [gapsAux], ?_⟩
    simp only [gapsAux, List.getLastD_eq_getLast?, List.getLast?_singleton,
      Option.getD_some]
    omega
  | cons b rest ih =>
    intro crc count segs h
    simp only [awLoop] at h
    cases hwb : b.writeBlock with
    | none => rw [hwb] at h; exact absurd h (by simp)
    | some bs =>
      rw [hwb] at h
      simp only [] at h
      by_cases hc : (count + 1) % 1000 == 0
      · rw [if_pos hc] at h
        cases hrec : awLoop rest
            (crc64Update (chkValue (crc64Update crc bs))
              (u64be (chkValue (crc64Update crc bs)))) (count + 1) with
        | none => rw [hrec] at h; exact absurd h (by simp)
        | some segs1 =>
          rw [hrec] at h
          simp only [Option.some.injEq] at h
          subst h
          have hc2 : (count + 1) % 1000 = 0 := by simpa using hc
          have hr : count % 1000 = 999 := by omega
          obtain ⟨hne, hall, hlast⟩ := ih _ _ _ hrec
          rw [hc2] at hne hall hlast
          simp only [gapsAux, hr]
          obtain ⟨c1, t1, heq⟩ := List.exists_cons_of_ne_nil hne
          rw [heq] at hall hlast ⊢
          refine ⟨by simp, ?_, ?_⟩
          · rw [show (999 : Nat) + 1 = 1000 from rfl, List.dropLast_cons₂]
            simp only [List.all_cons, Bool.and_eq_true]
            exact ⟨rfl, hall⟩
          · rw [show (999 : Nat) + 1 = 1000 from rfl, List.getLastD_cons,
              List.getLastD_cons] at *
            exact hlast
      · rw [if_neg hc] at h
        cases hrec : awLoop rest (crc64Update crc bs) (count + 1) with
        | none => rw [hrec] at h; exact absurd h (by simp)
        | some segs1 =>
          rw [hrec] at h
          simp only [Option.some.injEq] at h
          subst h
          have hc2 : (count + 1) % 1000 ≠ 0 := by simpa using hc
          have hstep : count % 1000 + 1 = (count + 1) % 1000 := by omega
          simp only [gapsAux, hstep]
          exact ih _ _ _ hrec

/-- C4: the writer emits a Checksum block after every 1000 queue blocks and
exactly one final Checksum block when the queue drains: in every produced
trace the runs of queue blocks closed by the successive Checksum blocks are
all exactly 1000 long except the final one, which is shorter, and the trace
(hence the stream, even for an empty run) ends with a Checksum block. -/
theorem c4_checksum_cadence (blocks : List Block) (crc : Nat) :
    match awLoop blocks crc 0 with
    | none => True
    | some segs =>
        segs ≠ [] ∧ lastIsChk segs = true ∧ gapsOk (gapsAux 0 segs) = true := by
  cases h : awLoop blocks crc 0 with
  | none => trivial
  | some segs =>
    obtain ⟨hne, hlast⟩ := awLoop_lastIsChk blocks crc 0 segs h
    obtain ⟨hgne, hall, hlt⟩ := awLoop_gaps blocks crc 0 segs h
    rw [Nat.zero_mod] at hall hlt
    refine ⟨hne, hlast, ?_⟩
    have hd : decide ((gapsAux 0 segs).getLastD 0 < 1000) = true := by
      simp only [decide_eq_true_eq]
      exact hlt
    simp only [gapsOk, hall, hd, Bool.and_self]

/-- C8: every block is encoded as a 2-byte big-endian path length, the path
bytes, a 1-byte type tag, then the type-specific payload: uid, gid and mode
as three big-endian 32-bit fields for Directory and StartOfFile, nothing for
EndOfFile, a 2-byte big-endian count plus exactly that many raw bytes for
Data; a Checksum block is a zero-length path followed by the 8-byte
big-endian hash value (and is never produced through `writeBlock`, whose
default arm panics). -/
theorem c8_block_encoding (b : Block) (crc : Nat) :
    b.writeBlock = (if b.blockType == BlockType.checksum then none
      else some (specEncode b)) ∧
    (writeChecksumBlockBytes crc).1 =
      u16be 0 ++ [blockTypeByte BlockType.checksum] ++ u64be (chkValue crc) := by
  constructor
  · cases hb : b.blockType <;>
      simp [Block.writeBlock, specEncode, wr, hb, List.append_assoc]
  · rw [writeChecksumBlockBytes_eq]
    simp [chkLead, List.append_assoc]

theorem countP_eof_data_map (p : List Nat) : ∀ chunks : List (List Nat),
    (chunks.map (dataBlock p)).countP
      (fun b => b.blockType == BlockType.endOfFile) = 0
  | [] => rfl
  | c :: rest => by
    simp only [List.map_cons, List.countP_cons, countP_eof_data_map p rest]
    rfl

theorem fileReaderChunksUnit_eq_concat (p : List Nat) (st : StatInfo)
    (chunks : List (List Nat)) :
    fileReaderChunksUnit p st chunks =
      (startOfFileBlock p st :: chunks.map (dataBlock p)) ++ [endOfFileBlock p] := by
  simp [fileReaderChunksUnit]

/-- C7: for every file path the reader consumes, if the open succeeds then
exactly one EndOfFile block is emitted, as the last block of the unit —
whether reading ended at end of stream, on a read error, or the file was
empty (any chunk list) — and the handle is closed and the unit of work
marked done; if the open fails, no blocks are emitted, and the worker
still marks the unit done and continues. -/
theorem c7_end_of_file_exactly_once (p : List Nat) (st : StatInfo)
    (chunks : List (List Nat)) :
    ((fileReaderItem p (some (st, chunks))).1.countP
        (fun b => b.blockType == BlockType.endOfFile) = 1 ∧
      (fileReaderItem p (some (st, chunks))).1.getLast? =
        some (endOfFileBlock p) ∧
      (fileReaderItem p (some (st, chunks))).2 = (true, true)) ∧
    fileReaderItem p none = ([], false, true) := by
  refine ⟨⟨?_, ?_, rfl⟩, rfl⟩
  · show (fileReaderChunksUnit p st chunks).countP _ = 1
    simp only [fileReaderChunksUnit, List.countP_cons, List.countP_append,
      countP_eof_data_map]
    rfl
  · show (fileReaderChunksUnit p st chunks).getLast? = some (endOfFileBlock p)
    rw [fileReaderChunksUnit_eq_concat, List.getLast?_concat]

theorem readChunks_nil : readChunks [] = [] := by
  rw [readChunks]
  exact dif_pos rfl

/-- Content that fits in one read produces exactly one chunk. -/
theorem readChunks_single (c : List Nat) (hne : c ≠ [])
    (hle : c.length ≤ BlockSize) : readChunks c = [c] := by
  rw [readChunks, dif_neg hne, List.take_of_length_le hle,
    List.drop_eq_nil_of_le hle, readChunks_nil]

/-- C2 (code bug): with the spec-fixed `BlockSize = 65536` and the `uint16`
field forced by the Go composite literal, a full 65536-byte chunk is stored
with `numBytes = uint16(65536) = 0`: the Data block for a 65536-byte file
carries byte count 0, and its encoding carries zero data bytes (the claim
expects count 65536 and all 65536 bytes, which the 2-byte count field
cannot even represent). -/
theorem c2_full_chunk_truncated :
    (fileReaderUnit [102] none (List.replicate 65536 7)).map
        (fun b => (b.blockType, b.numBytes)) =
      [(BlockType.startOfFile, 0), (BlockType.data, 0), (BlockType.endOfFile, 0)] ∧
    Block.writeBlock (dataBlock [102] (List.replicate 65536 7)) =
      some [0, 1, 102, 3, 0, 0] := by
  have hne : (List.replicate 65536 (7 : Nat)) ≠ [] := by
    intro h
    have hl := congrArg List.length h
    rw [List.length_replicate] at hl
    exact absurd hl (by decide)
  have h1 : readChunks (List.replicate 65536 7) = [List.replicate 65536 7] :=
    readChunks_single _ hne (by rw [List.length_replicate]; exact Nat.le_refl _)
  have hb : dataBlock [102] (List.replicate 65536 7) =
      { filePath := [102], numBytes := 0, buffer := List.replicate 65536 7,
        blockType := .data, uid := 0, gid := 0, mode := 0 } := by
    simp only [dataBlock, List.length_replicate]
    norm_num
  constructor
  · rw [fileReaderUnit, h1, fileReaderChunksUnit]
    simp only [List.map_cons, List.map_nil, List.map_append]
    rw [hb]
    rfl
  · rw [hb, Block.writeBlock]
    rfl

theorem units_file (m : List Nat → List Nat → Bool) (pats : List (List Nat))
    (p : List Nat) (st : StatInfo) (content : List Nat) :
    units m pats p (.file st content) = [fileReaderUnit p st content] := by
  rw [units]

theorem units_dir (m : List Nat → List Nat → Bool) (pats : List (List Nat))
    (p : List Nat) (st : StatInfo) (entries : List (List Nat × FSNode)) :
    units m pats p (.dir st entries) =
      [directoryBlock p st] ::
        (entries.attach.map (fun e =>
          if excluded m pats (joinPath p e.1.1) then []
          else units m pats (joinPath p e.1.1) e.1.2)).flatten := by
  rw [units]

theorem ilv_nil_left {L : List (List Block)} {s : List Block} (h : Ilv L s) :
    Ilv ([] :: L) s := by
  induction h with
  | done L hL =>
    refine Ilv.done _ ?_
    intro l hl
    rcases List.mem_cons.mp hl with h1 | h2
    · exact h1
    · exact hL l h2
  | step L i x l s hi hrec ih =>
    refine Ilv.step ([] :: L) (i + 1) x l s ?_ ?_
    · simpa using hi
    · simpa using ih

/-- The canonical one-worker-at-a-time stream is an interleaving. -/
theorem ilv_flatten : ∀ L : List (List Block), Ilv L L.flatten := by
  intro L
  induction L with
  | nil => exact Ilv.done [] (by intro l hl; cases hl)
  | cons l L ihL =>
    induction l with
    | nil => simpa using ilv_nil_left ihL
    | cons x l2 ihl =>
      have h2 : Ilv (l2 :: L) (l2 ++ L.flatten) := by simpa using ihl
      have hstep := Ilv.step ((x :: l2) :: L) 0 x l2 (l2 ++ L.flatten)
        (by simp) (by simpa using h2)
      simpa using hstep

/-- Every interleaving is a permutation of the concatenation: streams carry
exactly the blocks of the units. -/
theorem ilv_perm {L : List (List Block)} {s : List Block} (h : Ilv L s) :
    s.Perm L.flatten := by
  induction h with
  | done L hL =>
    have hz : L.flatten = [] := List.flatten_eq_nil_iff.mpr hL
    rw [hz]
  | step L i x l s hi hrec ih =>
    obtain ⟨hlen, hLi⟩ := List.getElem?_eq_some_iff.mp hi
    have hdrop : (x :: l) :: L.drop (i + 1) = L.drop i := by
      rw [← hLi]
      exact List.getElem_cons_drop L i hlen
    have hL : L.take i ++ (x :: l) :: L.drop (i + 1) = L := by
      rw [hdrop]
      exact List.take_append_drop i L
    have hset : L.set i l = L.take i ++ l :: L.drop (i + 1) := by
      rw [List.set_eq_take_append_cons_drop, if_pos hlen]
    have p1 : (x :: s).Perm (x :: (L.set i l).flatten) := ih.cons x
    rw [hset] at p1
    simp only [List.flatten_append, List.flatten_cons, List.cons_append] at p1
    rw [← hL]
    simp only [List.flatten_append, List.flatten_cons, List.cons_append]
    exact p1.trans List.perm_middle.symm

theorem set_getElem?_self {α : Type} {M : List α} {i : Nat} {a : α}
    (h : M[i]? = some a) : M.set i a = M := by
  obtain ⟨hlen, hMi⟩ := List.getElem?_eq_some_iff.mp h
  rw [List.set_eq_take_append_cons_drop, if_pos hlen, ← hMi,
    List.getElem_cons_drop M i hlen]
  exact List.take_append_drop i M

/-- If every entry of `M` except the one at `i` is empty, the concatenation
is that entry. -/
theorem flatten_eq_of_others_nil {α : Type} :
    ∀ (M : List (List α)) (i : Nat) (hi : i < M.length),
      (∀ j (hj : j < M.length), j ≠ i → M[j] = []) → M.flatten = M[i] := by
  intro M
  induction M with
  | nil => intro i hi _; simp at hi
  | cons a M2 ih =>
    intro i hi h
    cases i with
    | zero =>
      have h2 : M2.flatten = [] := by
        rw [List.flatten_eq_nil_iff]
        intro l hl
        obtain ⟨n, hn, heq⟩ := List.mem_iff_getElem.mp hl
        have h3 := h (n + 1) (by simpa using hn) (by omega)
        rw [List.getElem_cons_succ] at h3
        rw [← heq]
        exact h3
      simp [h2]
    | succ j =>
      have ha : a = [] := by
        have h0 := h 0 (by simp) (by omega)
        simpa using h0
      have hrec := ih j (by simpa using hi) (by
        intro k hk hkj
        have h4 := h (k + 1) (by simpa using hk) (by omega)
        rw [List.getElem_cons_succ] at h4
        exact h4)
      rw [List.flatten_cons, ha, List.nil_append, hrec, List.getElem_cons_succ]

/-- Filtering an interleaving: when at most one unit contains blocks
satisfying `P`, the filtered stream is the filtered concatenation — each
own order of each unit reaches the writer intact. -/
theorem ilv_filter (P : Block → Bool) :
    ∀ {L : List (List Block)} {s : List Block}, Ilv L s →
    (∀ i j (hi : i < L.length) (hj : j < L.length),
        L[i].any P = true → L[j].any P = true → i = j) →
    s.filter P = (L.map (List.filter P)).flatten := by
  intro L s h
  induction h with
  | done L hL =>
    intro _
    rw [List.filter_nil]
    symm
    rw [List.flatten_eq_nil_iff]
    intro l hl
    obtain ⟨l0, hl0, rfl⟩ := List.mem_map.mp hl
    rw [hL l0 hl0, List.filter_nil]
  | step L i x l s hi hrec ih =>
    intro huniq
    obtain ⟨hlen, hLi⟩ := List.getElem?_eq_some_iff.mp hi
    have hlenset : (L.set i l).length = L.length := List.length_set L i l
    have huniq2 : ∀ a b (ha : a < (L.set i l).length)
        (hb : b < (L.set i l).length),
        (L.set i l)[a].any P = true → (L.set i l)[b].any P = true → a = b := by
      intro a b ha hb hpa hpb
      have htr : ∀ c (hc : c < (L.set i l).length),
          (L.set i l)[c].any P = true → L[c].any P = true := by
        intro c hc hpc
        by_cases hci : c = i
        · subst hci
          rw [List.getElem_set_self] at hpc
          rw [hLi]
          simp only [List.any_cons, hpc, Bool.or_true]
        · rw [List.getElem_set_ne (by omega)] at hpc
          exact hpc
      exact huniq a b (by omega) (by omega) (htr a ha hpa) (htr b hb hpb)
    have ihres := ih huniq2
    by_cases hP : P x = true
    · have hothers : ∀ j (hj : j < L.length), j ≠ i → L[j].any P = false := by
        intro j hj hne
        cases hq : L[j].any P with
        | false => rfl
        | true =>
          have hie : L[i].any P = true := by
            rw [hLi]
            simp [hP]
          exact absurd (huniq j i hj hlen hq hie) hne
      have hlen3 : i < (L.map (List.filter P)).length := by simpa using hlen
      have hnil3 : ∀ j (hj : j < (L.map (List.filter P)).length), j ≠ i →
          (L.map (List.filter P))[j] = [] := by
        intro j hj hne
        have hj2 : j < L.length := by simpa using hj
        simp only [List.getElem_map]
        rw [List.filter_eq_nil_iff]
        intro b hb hPb
        have hany : L[j].any P = true := List.any_eq_true.mpr ⟨b, hb, hPb⟩
        rw [hothers j hj2 hne] at hany
        exact Bool.noConfusion hany
      have hflat : (L.map (List.filter P)).flatten = List.filter P (x :: l) := by
        rw [flatten_eq_of_others_nil _ i hlen3 hnil3]
        simp only [List.getElem_map]
        rw [hLi]
      have hlen4 : i < ((L.set i l).map (List.filter P)).length := by
        simpa using hlen
      have hnil4 : ∀ j (hj : j < ((L.set i l).map (List.filter P)).length),
          j ≠ i → ((L.set i l).map (List.filter P))[j] = [] := by
        intro j hj hne
        have hj2 : j < L.length := by simp at hj; omega
        simp only [List.getElem_map]
        rw [List.getElem_set_ne (by omega)]
        rw [List.filter_eq_nil_iff]
        intro b hb hPb
        have hany : L[j].any P = true := List.any_eq_true.mpr ⟨b, hb, hPb⟩
        rw [hothers j hj2 hne] at hany
        exact Bool.noConfusion hany
      have hflat2 : ((L.set i l).map (List.filter P)).flatten =
          List.filter P l := by
        rw [flatten_eq_of_others_nil _ i hlen4 hnil4]
        simp only [List.getElem_map]
        rw [List.getElem_set_self]
      rw [List.filter_cons_of_pos hP, hflat, List.filter_cons_of_pos hP,
        ihres, hflat2]
    · have hPf : P x = false := by
        cases hq : P x with
        | false => rfl
        | true => exact absurd hq hP
      rw [List.filter_cons_of_neg (by simp [hPf]), ihres]
      have hmapeq : (L.set i l).map (List.filter P) = L.map (List.filter P) := by
        rw [List.map_set]
        apply set_getElem?_self
        rw [List.getElem?_map, hi]
        simp [List.filter_cons, hPf]
      rw [hmapeq]

/-! ## Per-path block grouping -/

theorem units_fileOpenFail (m : List Nat → List Nat → Bool)
    (pats : List (List Nat)) (p : List Nat) :
    units m pats p .fileOpenFail = [] := by rw [units]

theorem units_dirOpenFail (m : List Nat → List Nat → Bool)
    (pats : List (List Nat)) (p : List Nat) :
    units m pats p .dirOpenFail = [] := by rw [units]

theorem units_symlink (m : List Nat → List Nat → Bool)
    (pats : List (List Nat)) (p : List Nat) :
    units m pats p .symlink = [] := by rw [units]

theorem units_lstatFail (m : List Nat → List Nat → Bool)
    (pats : List (List Nat)) (p : List Nat) :
    units m pats p .lstatFail = [] := by rw [units]

/-- The value of `units` on a directory, with the entry traversal as a plain map. -/
theorem units_dir_plain (m : List Nat → List Nat → Bool)
    (pats : List (List Nat)) (p : List Nat) (st : StatInfo)
    (entries : List (List Nat × FSNode)) :
    units m pats p (.dir st entries) =
      [directoryBlock p st] ::
        (entries.map (fun e =>
          if excluded m pats (joinPath p e.1) then []
          else units m pats (joinPath p e.1) e.2)).flatten := by
  rw [units_dir]
  congr 2
  exact List.attach_map_val entries (fun e =>
    if excluded m pats (joinPath p e.1) then []
    else units m pats (joinPath p e.1) e.2)

@[simp] theorem unitPath_directory (p : List Nat) (st : StatInfo) :
    unitPath [directoryBlock p st] = p := rfl

@[simp] theorem unitPath_fileReaderChunksUnit (p : List Nat) (st : StatInfo)
    (chunks : List (List Nat)) :
    unitPath (fileReaderChunksUnit p st chunks) = p := rfl

@[simp] theorem unitPath_fileReaderUnit (p : List Nat) (st : StatInfo)
    (content : List Nat) : unitPath (fileReaderUnit p st content) = p := rfl

theorem fileReaderChunksUnit_paths (p : List Nat) (st : StatInfo)
    (chunks : List (List Nat)) :
    ∀ b ∈ fileReaderChunksUnit p st chunks, b.filePath = p := by
  intro b hb
  rcases List.mem_cons.mp hb with rfl | h2
  · rfl
  · rcases List.mem_append.mp h2 with h3 | h4
    · obtain ⟨c, _, rfl⟩ := List.mem_map.mp h3
      rfl
    · rw [List.mem_singleton.mp h4]
      rfl

/-- Every unit is nonempty and homogeneous: all of its blocks carry the
path of the unit. -/
theorem units_homog (m : List Nat → List Nat → Bool) (pats : List (List Nat)) :
    ∀ (p : List Nat) (t : FSNode), ∀ u ∈ units m pats p t,
      u ≠ [] ∧ ∀ b ∈ u, b.filePath = unitPath u := by
  intro p t
  induction p, t using units.induct m pats with
  | case1 p st content =>
    intro u hu
    rw [units_file] at hu
    rw [List.mem_singleton.mp hu]
    refine ⟨by simp [fileReaderUnit, fileReaderChunksUnit], ?_⟩
    intro b hb
    rw [fileReaderChunksUnit_paths p st (readChunks content) b hb,
      unitPath_fileReaderUnit]
  | case2 p =>
    intro u hu
    rw [units_fileOpenFail] at hu
    cases hu
  | case3 p st entries ih =>
    intro u hu
    rw [units_dir_plain] at hu
    rcases List.mem_cons.mp hu with rfl | h2
    · refine ⟨by simp, ?_⟩
      intro b hb
      rw [List.mem_singleton.mp hb, unitPath_directory]
      rfl
    · obtain ⟨w, hw, hwu⟩ := List.mem_flatten.mp h2
      obtain ⟨e, he, rfl⟩ := List.mem_map.mp hw
      by_cases hex : excluded m pats (joinPath p e.1) = true
      · rw [if_pos hex] at hwu
        cases hwu
      · rw [if_neg hex] at hwu
        exact ih e he hex u hwu
  | case4 p =>
    intro u hu
    rw [units_dirOpenFail] at hu
    cases hu
  | case5 p =>
    intro u hu
    rw [units_symlink] at hu
    cases hu
  | case6 p =>
    intro u hu
    rw [units_lstatFail] at hu
    cases hu

theorem dataThenEof_datas (p : List Nat) : ∀ chunks : List (List Nat),
    dataThenEof (chunks.map (dataBlock p) ++ [endOfFileBlock p]) = true
  | [] => rfl
  | [c] => rfl
  | c :: c2 :: rest => by
    have ih := dataThenEof_datas p (c2 :: rest)
    simp only [List.map_cons, List.cons_append] at ih ⊢
    rw [dataThenEof, ih]
    rfl

theorem groupOk_directory (p : List Nat) (st : StatInfo) :
    groupOk [directoryBlock p st] = true := rfl

theorem groupOk_file (p : List Nat) (st : StatInfo)
    (chunks : List (List Nat)) :
    groupOk (fileReaderChunksUnit p st chunks) = true := by
  have hnodir : (fileReaderChunksUnit p st chunks).any
      (fun b => b.blockType == BlockType.directory) = false := by
    rw [List.any_eq_false]
    intro b hb
    rcases List.mem_cons.mp hb with rfl | h2
    · simp [startOfFileBlock]
    · rcases List.mem_append.mp h2 with h3 | h4
      · obtain ⟨c, _, rfl⟩ := List.mem_map.mp h3
        simp [dataBlock]
      · rw [List.mem_singleton.mp h4]
        simp [endOfFileBlock]
  have hshape : fileShape (fileReaderChunksUnit p st chunks) = true := by
    rw [fileReaderChunksUnit, fileShape, dataThenEof_datas]
    rfl
  rw [groupOk, hnodir, hshape]
  simp [fileReaderChunksUnit, isFileBlock, startOfFileBlock]

/-- Every unit satisfies the per-path group property. -/
theorem units_groupOk (m : List Nat → List Nat → Bool)
    (pats : List (List Nat)) :
    ∀ (p : List Nat) (t : FSNode), ∀ u ∈ units m pats p t,
      groupOk u = true := by
  intro p t
  induction p, t using units.induct m pats with
  | case1 p st content =>
    intro u hu
    rw [units_file] at hu
    rw [List.mem_singleton.mp hu]
    exact groupOk_file p st (readChunks content)
  | case2 p =>
    intro u hu
    rw [units_fileOpenFail] at hu
    cases hu
  | case3 p st entries ih =>
    intro u hu
    rw [units_dir_plain] at hu
    rcases List.mem_cons.mp hu with rfl | h2
    · exact groupOk_directory p st
    · obtain ⟨w, hw, hwu⟩ := List.mem_flatten.mp h2
      obtain ⟨e, he, rfl⟩ := List.mem_map.mp hw
      by_cases hex : excluded m pats (joinPath p e.1) = true
      · rw [if_pos hex] at hwu
        cases hwu
      · rw [if_neg hex] at hwu
        exact ih e he hex u hwu
  | case4 p =>
    intro u hu
    rw [units_dirOpenFail] at hu
    cases hu
  | case5 p =>
    intro u hu
    rw [units_symlink] at hu
    cases hu
  | case6 p =>
    intro u hu
    rw [units_lstatFail] at hu
    cases hu

/-- C5: for every stream the pipeline can produce (any interleaving of the
per-unit FIFO sequences) from a tree whose unit paths are pairwise
distinct, decoding the blocks in order and grouping them by path yields:
for every path with a Directory block exactly one such block, and for every
path with file blocks exactly one StartOfFile, then zero or more Data
blocks, then exactly one EndOfFile, with no other blocks of that path
interleaved between them. -/
theorem c5_per_path_groups (m : List Nat → List Nat → Bool)
    (pats : List (List Nat)) (root : List Nat) (t : FSNode) (s : List Block)
    (hs : Ilv (units m pats root t) s)
    (hnodup : ((units m pats root t).map unitPath).Nodup) :
    streamGroupsOk s = true := by
  rw [streamGroupsOk, List.all_eq_true]
  intro q _
  have hhom := units_homog m pats root t
  have hgro := units_groupOk m pats root t
  have huniq : ∀ i j (hi : i < (units m pats root t).length)
      (hj : j < (units m pats root t).length),
      (units m pats root t)[i].any (fun b => b.filePath == q) = true →
      (units m pats root t)[j].any (fun b => b.filePath == q) = true →
      i = j := by
    intro i j hi hj hai haj
    have hup : ∀ k (hk : k < (units m pats root t).length),
        (units m pats root t)[k].any (fun b => b.filePath == q) = true →
        unitPath (units m pats root t)[k] = q := by
      intro k hk hak
      obtain ⟨b, hb, hPb⟩ := List.any_eq_true.mp hak
      have hhb := (hhom (units m pats root t)[k] (List.getElem_mem hk)).2 b hb
      rw [← hhb]
      exact eq_of_beq hPb
    have hi2 : i < ((units m pats root t).map unitPath).length := by simpa using hi
    have hj2 : j < ((units m pats root t).map unitPath).length := by simpa using hj
    have heqm : ((units m pats root t).map unitPath)[i] =
        ((units m pats root t).map unitPath)[j] := by
      simp only [List.getElem_map]
      rw [hup i hi hai, hup j hj haj]
    exact (List.Nodup.getElem_inj_iff hnodup).mp heqm
  have hfil := ilv_filter (fun b => b.filePath == q) hs huniq
  rw [hfil]
  by_cases hex : ∃ i, ∃ hi : i < (units m pats root t).length,
      (units m pats root t)[i].any (fun b => b.filePath == q) = true
  · obtain ⟨i, hi, hany⟩ := hex
    have hlenm : i < ((units m pats root t).map
        (List.filter (fun b => b.filePath == q))).length := by simpa using hi
    have hnil : ∀ j (hj : j < ((units m pats root t).map
        (List.filter (fun b => b.filePath == q))).length), j ≠ i →
        ((units m pats root t).map
          (List.filter (fun b => b.filePath == q)))[j] = [] := by
      intro j hj hne
      have hj2 : j < (units m pats root t).length := by simpa using hj
      simp only [List.getElem_map]
      rw [List.filter_eq_nil_iff]
      intro b hb hPb
      have haj : (units m pats root t)[j].any
          (fun b => b.filePath == q) = true :=
        List.any_eq_true.mpr ⟨b, hb, hPb⟩
      exact hne (huniq j i hj2 hi haj hany)
    rw [flatten_eq_of_others_nil _ i hlenm hnil]
    simp only [List.getElem_map]
    have hmem : (units m pats root t)[i] ∈ units m pats root t :=
      List.getElem_mem hi
    obtain ⟨_, hhomi⟩ := hhom _ hmem
    have hupq : unitPath (units m pats root t)[i] = q := by
      obtain ⟨b, hb, hPb⟩ := List.any_eq_true.mp hany
      rw [← hhomi b hb]
      exact eq_of_beq hPb
    have hfe : List.filter (fun b => b.filePath == q)
        (units m pats root t)[i] = (units m pats root t)[i] := by
      rw [List.filter_eq_self]
      intro b hb
      rw [hhomi b hb, hupq]
      exact beq_self_eq_true q
    rw [hfe]
    exact hgro _ hmem
  · push_neg at hex
    have hz : ((units m pats root t).map
        (List.filter (fun b => b.filePath == q))).flatten = [] := by
      rw [List.flatten_eq_nil_iff]
      intro l hl
      obtain ⟨u, hu, rfl⟩ := List.mem_map.mp hl
      rw [List.filter_eq_nil_iff]
      intro b hb hPb
      obtain ⟨k, hk, hke⟩ := List.mem_iff_getElem.mp hu
      have hka : (units m pats root t)[k].any
          (fun b => b.filePath == q) = true := by
        rw [hke]
        exact List.any_eq_true.mpr ⟨b, hb, hPb⟩
      exact hex k hk hka
    rw [hz]
    rfl

/-- Witness for C5 at a concrete tree: a root directory holding one
two-byte file, archived with no exclusions, in the canonical stream
order. -/
theorem c5_per_path_groups_witness :
    streamGroupsOk ((units (fun _ _ => false) [] [114]
      (FSNode.dir none [([102], FSNode.file none [1, 2])])).flatten) = true := by
  refine c5_per_path_groups _ _ _ _ _ (ilv_flatten _) ?_
  rw [units_dir_plain]
  simp only [List.map_cons, List.map_nil, excluded, List.any_nil,
    Bool.false_eq_true, if_false, units_file, List.flatten_cons,
    List.flatten_nil, List.append_nil, List.nil_append,
    unitPath_directory, unitPath_fileReaderUnit]
  decide

/-! ## Producer block types (C9) -/

theorem fileReaderChunksUnit_writeBlock_isSome (p : List Nat) (st : StatInfo)
    (chunks : List (List Nat)) :
    ∀ b ∈ fileReaderChunksUnit p st chunks, b.writeBlock.isSome = true := by
  intro b hb
  rcases List.mem_cons.mp hb with rfl | h2
  · rfl
  · rcases List.mem_append.mp h2 with h3 | h4
    · obtain ⟨c, _, rfl⟩ := List.mem_map.mp h3
      rfl
    · rw [List.mem_singleton.mp h4]
      rfl

theorem units_writeBlock_isSome (m : List Nat → List Nat → Bool)
    (pats : List (List Nat)) :
    ∀ (p : List Nat) (t : FSNode), ∀ u ∈ units m pats p t, ∀ b ∈ u,
      b.writeBlock.isSome = true := by
  intro p t
  induction p, t using units.induct m pats with
  | case1 p st content =>
    intro u hu
    rw [units_file] at hu
    rw [List.mem_singleton.mp hu]
    exact fileReaderChunksUnit_writeBlock_isSome p st (readChunks content)
  | case2 p =>
    intro u hu
    rw [units_fileOpenFail] at hu
    cases hu
  | case3 p st entries ih =>
    intro u hu
    rw [units_dir_plain] at hu
    rcases List.mem_cons.mp hu with rfl | h2
    · intro b hb
      rw [List.mem_singleton.mp hb]
      rfl
    · obtain ⟨w, hw, hwu⟩ := List.mem_flatten.mp h2
      obtain ⟨e, he, rfl⟩ := List.mem_map.mp hw
      by_cases hex : excluded m pats (joinPath p e.1) = true
      · rw [if_pos hex] at hwu
        cases hwu
      · rw [if_neg hex] at hwu
        exact ih e he hex u hwu
  | case4 p =>
    intro u hu
    rw [units_dirOpenFail] at hu
    cases hu
  | case5 p =>
    intro u hu
    rw [units_symlink] at hu
    cases hu
  | case6 p =>
    intro u hu
    rw [units_lstatFail] at hu
    cases hu

/-- C9: every block the directory scanners and file readers place on the
block queue carries one of the four producer block types, so `writeBlock`
succeeds on all of them and the panic in its default arm is unreachable for
pipeline-produced blocks. -/
theorem c9_default_arm_unreachable (m : List Nat → List Nat → Bool)
    (pats : List (List Nat)) (p : List Nat) (t : FSNode) :
    ((units m pats p t).flatten).all (fun b => b.writeBlock.isSome) = true := by
  rw [List.all_eq_true]
  intro b hb
  obtain ⟨u, hu, hbu⟩ := List.mem_flatten.mp hb
  exact units_writeBlock_isSome m pats p t u hu b hbu

/-- C10: when `file.Stat()` fails on an already-open handle,
`getModeOwnership` returns uid 0, gid 0 and mode 0, and the Directory or
StartOfFile block is still emitted, carrying those zero values — the item
is not skipped. -/
theorem c10_stat_failure_zero_metadata (m : List Nat → List Nat → Bool)
    (pats : List (List Nat)) (p : List Nat)
    (entries : List (List Nat × FSNode)) (chunks : List (List Nat)) :
    getModeOwnership none = (0, 0, 0) ∧
    (units m pats p (.dir none entries)).head? =
      some [directoryBlock p none] ∧
    directoryBlock p none =
      { filePath := p, numBytes := 0, buffer := [],
        blockType := .directory, uid := 0, gid := 0, mode := 0 } ∧
    (fileReaderItem p (some (none, chunks))).1.head? =
      some (startOfFileBlock p none) ∧
    startOfFileBlock p none =
      { filePath := p, numBytes := 0, buffer := [],
        blockType := .startOfFile, uid := 0, gid := 0, mode := 0 } := by
  refine ⟨rfl, ?_, rfl, rfl, rfl⟩
  rw [units_dir_plain]
  rfl

/-- C1 (code bug): an archiver configured through the public
`ExcludePatterns` field with the pattern "a/b" (bytes [97,47,98]),
archiving a root "a" whose entry "b" is a regular file — a path the
pattern matches exactly — still produces, in every possible stream, a
block whose path is the matched "a/b": the exported field is never copied
into the consulted `excludePatterns`, so the configured exclusion has no
effect. -/
theorem c1_public_exclusion_ineffective (s : List Block)
    (hs : Ilv (({ NewArchiver with
        ExcludePatterns := [[97, 47, 98]] }).runUnits
      (fun pat q => pat == q) [97]
      (FSNode.dir none [([98], FSNode.file none [5])])) s) :
    ((fun pat q => pat == q) ([97, 47, 98] : List Nat) [97, 47, 98] = true) ∧
    ∃ b ∈ s, b.filePath = [97, 47, 98] := by
  refine ⟨rfl, ?_⟩
  have hmem : startOfFileBlock [97, 47, 98] none ∈
      (({ NewArchiver with
          ExcludePatterns := [[97, 47, 98]] }).runUnits
        (fun pat q => pat == q) [97]
        (FSNode.dir none [([98], FSNode.file none [5])])).flatten := by
    rw [Archiver.runUnits, units_dir_plain]
    simp only [excluded, List.any_nil, Bool.false_eq_true, if_false,
      units_file, List.map_cons, List.map_nil, List.flatten_cons,
      List.flatten_nil, List.append_nil]
    exact List.mem_append_right _ (List.mem_append_left _
      (List.mem_cons_self _ _))
  exact ⟨_, ((ilv_perm hs).mem_iff).mpr hmem, rfl⟩

/-- Witness for C1: the canonical stream of that run. -/
theorem c1_public_exclusion_ineffective_witness :
    ((fun pat q => pat == q) ([97, 47, 98] : List Nat) [97, 47, 98] = true) ∧
    ∃ b ∈ (({ NewArchiver with
        ExcludePatterns := [[97, 47, 98]] }).runUnits
      (fun pat q => pat == q) [97]
      (FSNode.dir none [([98], FSNode.file none [5])])).flatten,
      b.filePath = [97, 47, 98] :=
  c1_public_exclusion_ineffective _ (ilv_flatten _)

/-- Every routed unit of work is eventually matched: one Add (its enqueue)
plus the Adds of the subtree equal the Dones of the subtree, so the counter drains
to zero and the pipeline terminates. -/
theorem adds_eq_dones (m : List Nat → List Nat → Bool)
    (pats : List (List Nat)) :
    ∀ (p : List Nat) (t : FSNode),
      1 + addsOf m pats p t = donesOf m pats p t := by
  intro p t
  induction p, t using addsOf.induct m pats with
  | case3 p st entries ih =>
    rw [addsOf, donesOf]
    have hsum : (entries.attach.map (fun e =>
        if excluded m pats (joinPath p e.1.1) then 0
        else if routed e.1.2 then 1 + addsOf m pats (joinPath p e.1.1) e.1.2
        else 0)) =
        (entries.attach.map (fun e =>
          if excluded m pats (joinPath p e.1.1) then 0
          else if routed e.1.2 then donesOf m pats (joinPath p e.1.1) e.1.2
          else 0)) := by
      apply List.map_congr_left
      intro ea _
      by_cases hex : excluded m pats (joinPath p ea.1.1) = true
      · rw [if_pos hex, if_pos hex]
      · rw [if_neg hex, if_neg hex]
        by_cases hro : routed ea.1.2 = true
        · rw [if_pos hro, if_pos hro]
          exact ih ea.1 ea.2 hex hro
        · rw [if_neg hro, if_neg hro]
    rw [hsum]
  | case1 p st content => rw [addsOf, donesOf]
  | case2 p => rw [addsOf, donesOf]
  | case4 p => rw [addsOf, donesOf]
  | case5 p => rw [addsOf, donesOf]
  | case6 p => rw [addsOf, donesOf]

/-- C6: a run whose root set contains an absolute path terminates without
deadlock — every Add on the pending-work counter is matched by a Done,
for absolute roots included, so the queues close and the pipeline drains —
the absolute root contributes no blocks, and `Run` reports the recorded
fatal absolute-path error, unless the writer itself failed with an I/O
error, which takes precedence. -/
theorem c6_absolute_root_terminates (m : List Nat → List Nat → Bool)
    (pats : List (List Nat)) (roots : List (List Nat × FSNode))
    (h : (roots.map Prod.fst).any startsWithSlash = true) :
    runError none (roots.map Prod.fst) =
      some GoError.absoluteDirectoryPath ∧
    runError (some GoError.ioError) (roots.map Prod.fst) =
      some GoError.ioError ∧
    (roots.all (fun r => !startsWithSlash r.1 ||
      decide (rootUnits m pats r.1 r.2 = []))) = true ∧
    (roots.all (fun r =>
      rootAdds m pats r.1 r.2 == rootDones m pats r.1 r.2)) = true := by
  refine ⟨?_, rfl, ?_, ?_⟩
  · rw [runError, scanError, if_pos h]
  · rw [List.all_eq_true]
    intro r _
    by_cases habs : startsWithSlash r.1 = true
    · have hru : rootUnits m pats r.1 r.2 = [] := by
        rw [rootUnits, if_pos habs]
      rw [hru]
      simp
    · have hf : startsWithSlash r.1 = false := by
        cases hq : startsWithSlash r.1
        · rfl
        · exact absurd hq habs
      rw [hf]
      rfl
  · rw [List.all_eq_true]
    intro r _
    have hrd : rootAdds m pats r.1 r.2 = rootDones m pats r.1 r.2 := by
      rw [rootAdds, rootDones]
      by_cases habs : startsWithSlash r.1 = true
      · rw [if_pos habs, if_pos habs]
      · rw [if_neg habs, if_neg habs]
        exact adds_eq_dones m pats r.1 r.2
    rw [hrd]
    exact beq_self_eq_true _

/-- Witness for C6: one absolute root "/a" with an empty directory tree. -/
theorem c6_absolute_root_terminates_witness :
    runError none ([([47, 97], FSNode.dir none [])].map Prod.fst) =
      some GoError.absoluteDirectoryPath ∧
    runError (some GoError.ioError)
      ([([47, 97], FSNode.dir none [])].map Prod.fst) =
      some GoError.ioError ∧
    ([([47, 97], FSNode.dir none [])].all (fun r => !startsWithSlash r.1 ||
      decide (rootUnits (fun _ _ => false) [] r.1 r.2 = []))) = true ∧
    ([([47, 97], FSNode.dir none [])].all (fun r =>
      rootAdds (fun _ _ => false) [] r.1 r.2 ==
        rootDones (fun _ _ => false) [] r.1 r.2)) = true :=
  c6_absolute_root_terminates (fun _ _ => false) [] _ (by decide)

end FastArchiver
